import Mathlib

/-
Verification of the core of the go-cmdtest repository (package cmdtest).

The Go source in cmdtest.go is shallowly embedded here:
strings become lists of characters, a test file becomes a list of lines
(the bufio scanner in readFile is line oriented, and writeLines emits each
line followed by a newline), fallible Go functions become Except-valued
Lean functions, and the file-system effects of update mode become explicit
state passing over a small file-system state type.
-/

set_option maxHeartbeats 1000000

deriving instance DecidableEq for Except

namespace Cmdtest

/-- A single line of a test file, as produced by the bufio scanner in
readFile: the line's characters without the trailing newline. -/
abbrev Line := List Char

/-- strings.TrimSpace: drop leading and trailing whitespace characters. -/
def trimSpace (l : List Char) : List Char :=
  ((l.dropWhile Char.isWhitespace).reverse.dropWhile Char.isWhitespace).reverse

/-- strings.HasPrefix pat applied to s: s starts with the pattern pat. -/
def startsWith : List Char → List Char → Bool
  | _, [] => true
  | [], _ :: _ => false
  | a :: as, b :: bs => a = b && startsWith as bs

/-- One test case of a test file: the struct testCase of cmdtest.go.
gotOutput is none when the case has not been executed (nil in Go). -/
structure testCase where
  before : List Line
  startLine : Nat
  commands : List Line
  wantOutput : List Line
  gotOutput : Option (List Line)
deriving DecidableEq

/-- One parsed test file: the struct testFile of cmdtest.go (the suite
back pointer and the file name play no role in the verified operations). -/
structure testFile where
  cases : List testCase
  suffix : List Line
deriving DecidableEq

/-- strings.HasPrefix(line, "$"): the line starts a command. -/
def isCommandLine : Line → Bool
  | '$' :: _ => true
  | _ => false

/-- The test in testFile.addCase: the line is empty or starts with '#'
(a line that the parser may treat as ignorable trailing output). -/
def isIgnorableLine : Line → Bool
  | [] => true
  | c :: _ => c = '#'

/-- testCase.addCommandLine: append the line, with its leading "$" removed
and surrounding space trimmed, to the case's commands. -/
def addCommandLine (tc : testCase) (line : Line) : testCase :=
  { tc with commands := tc.commands ++ [trimSpace line.tail] }

/-- The splitting step of testFile.addCase: scan the collected output from
the end and split off the longest suffix of blank or comment lines.
The first component is the kept output, the second the ignorable suffix. -/
def splitIgnorableSuffix (out : List Line) : List Line × List Line :=
  ((out.reverse.dropWhile isIgnorableLine).reverse,
   (out.reverse.takeWhile isIgnorableLine).reverse)

/-- testFile.addCase: trim the ignorable suffix from the case's collected
output, append the case to the file, and return the trimmed suffix. -/
def addCase (tf : testFile) (tc : testCase) : testFile × List Line :=
  let p := splitIgnorableSuffix tc.wantOutput
  ({ tf with cases := tf.cases ++ [{ tc with wantOutput := p.1 }] }, p.2)

/-- The three parse states of readFile. beforeFirst carries the ignorable
lines accumulated so far (the local variable named prefix in the Go code);
the other two states carry the open test case. -/
inductive parseState where
  | beforeFirst (pre : List Line)
  | inCommands (tc : testCase)
  | inOutput (tc : testCase)

/-- The scanner loop of readFile. The Nat argument is the number of lines
already consumed (the Go variable lineno before the current line). -/
def readLoop : testFile → parseState → Nat → List Line → Except String testFile
  | tf, st, _, [] =>
    match st with
    | .beforeFirst _ => .ok tf
    | .inCommands tc => let p := addCase tf tc; .ok { p.1 with suffix := p.2 }
    | .inOutput tc => let p := addCase tf tc; .ok { p.1 with suffix := p.2 }
  | tf, st, n, line :: rest =>
    match st with
    | .beforeFirst pre =>
      if isCommandLine line then
        readLoop tf (.inCommands (addCommandLine ⟨pre, n + 1, [], [], none⟩ line)) (n + 1) rest
      else
        let t := trimSpace line
        if isIgnorableLine t then
          readLoop tf (.beforeFirst (pre ++ [t])) (n + 1) rest
        else
          .error "bad line (should begin with a comment character)"
    | .inCommands tc =>
      if isCommandLine line then
        readLoop tf (.inCommands (addCommandLine tc line)) (n + 1) rest
      else
        readLoop tf (.inOutput { tc with wantOutput := tc.wantOutput ++ [line] }) (n + 1) rest
    | .inOutput tc =>
      if isCommandLine line then
        let p := addCase tf tc
        readLoop p.1 (.inCommands (addCommandLine ⟨p.2, n + 1, [], [], none⟩ line)) (n + 1) rest
      else
        readLoop tf (.inOutput { tc with wantOutput := tc.wantOutput ++ [line] }) (n + 1) rest

/-- readFile of cmdtest.go, over the list of lines of the file. -/
def readFile (text : List Line) : Except String testFile :=
  readLoop ⟨[], []⟩ (.beforeFirst []) 0 text

/-- testCase.writeCommands: each stored command is emitted as a line
"$ " followed by the command text. -/
def writeCommands (tc : testCase) : List Line :=
  tc.commands.map (fun c => '$' :: ' ' :: c)

/-- testCase.write: the before lines, the command lines, then gotOutput,
falling back to wantOutput when gotOutput is nil. -/
def writeCase (tc : testCase) : List Line :=
  tc.before ++ writeCommands tc ++
    (match tc.gotOutput with
     | none => tc.wantOutput
     | some out => out)

/-- testFile.write: every case in order, then the file's trailing suffix.
The lines produced here are each emitted followed by a newline by
writeLines in the Go code. -/
def write (tf : testFile) : List Line :=
  (tf.cases.map writeCase).flatten ++ tf.suffix

/-! ### The command-line parser (parseCommand) -/

/-- The literal marker " --> FAIL" searched for by parseCommand. -/
def failMarker : List Char := [' ', '-', '-', '>', ' ', 'F', 'A', 'I', 'L']

/-- Search start positions m, m-1, ..., 0 for the last one at which sub
starts; the downward scan realizes the rightmost-occurrence semantics of
strings.LastIndex. -/
def lastIndexFrom (s sub : List Char) : Nat → Option Nat
  | 0 => if startsWith s sub then some 0 else none
  | m + 1 => if startsWith (s.drop (m + 1)) sub then some (m + 1) else lastIndexFrom s sub m

/-- strings.LastIndex: the index of the last occurrence of sub in s,
or none when sub does not occur. -/
def lastIndex (s sub : List Char) : Option Nat :=
  lastIndexFrom s sub s.length

/-- Whether sub occurs anywhere in s (a bounded, decidable scan). -/
def occursIn (s sub : List Char) : Bool :=
  (List.range (s.length + 1)).any (fun i => startsWith (s.drop i) sub)

/-- The digit-accumulation loop of strconv.Atoi: none on a non-digit or on
no digits at all having been seen (the accumulator starts as the value of
the digits consumed so far). -/
def digitsToNat : List Char → Nat → Option Nat
  | [], acc => some acc
  | c :: rest, acc =>
    if c.isDigit then digitsToNat rest (acc * 10 + (c.toNat - 48)) else none

/-- strconv.Atoi: an optional sign followed by one or more decimal digits.
The Go range check for machine integers is not modelled; exit codes are
far below it. -/
def atoi (s : List Char) : Except String Int :=
  match s with
  | [] => .error "atoi: empty input"
  | '-' :: rest =>
    match rest, digitsToNat rest 0 with
    | _ :: _, some n => .ok (-(n : Int))
    | _, _ => .error "atoi: bad input"
  | '+' :: rest =>
    match rest, digitsToNat rest 0 with
    | _ :: _, some n => .ok (n : Int)
    | _, _ => .error "atoi: bad input"
  | _ =>
    match digitsToNat s 0 with
    | some n => .ok (n : Int)
    | none => .error "atoi: bad input"

/-- parseCommand of cmdtest.go: split a stored command line into the
command text, the want-fail flag, and the wanted exit code (0 when no
specific code is required). -/
def parseCommand (cmdline : List Char) : Except String (List Char × Bool × Int) :=
  match lastIndex cmdline failMarker with
  | none => .ok (cmdline, false, 0)
  | some i =>
    let cmd := cmdline.take i
    let rest := trimSpace (cmdline.drop (i + failMarker.length))
    if rest = [] then .ok (cmd, true, 0)
    else
      match atoi rest with
      | .error e => .error e
      | .ok n =>
        if n = 0 then .error "cannot use 0 as a FAIL exit code"
        else .ok (cmd, true, n)

/-! ### The variable expander (expandVariables) -/

/-- A character allowed inside a variable name by the regular expression
of varRegexp: anything but the three special characters. -/
def isNameChar (c : Char) : Bool :=
  ¬ (c = '$' ∨ c = '{' ∨ c = '}')

/-- Match of varRegexp anchored at the front of s: a dollar, an opening
brace, one or more name characters, a closing brace. Returns the name and
the total length of the match. -/
def matchVarAt (s : List Char) : Option (List Char × Nat) :=
  match s with
  | '$' :: '{' :: rest =>
    if rest.takeWhile isNameChar = [] then none
    else
      match rest.drop (rest.takeWhile isNameChar).length with
      | '}' :: _ =>
        some (rest.takeWhile isNameChar, (rest.takeWhile isNameChar).length + 3)
      | _ => none
  | _ => none

/-- FindStringSubmatchIndex of varRegexp: the leftmost match of the
variable pattern in s, as (start index, name, total match length). -/
def findVar : List Char → Option (Nat × List Char × Nat)
  | [] => none
  | c :: rest =>
    match matchVarAt (c :: rest) with
    | some (name, len) => some (0, name, len)
    | none =>
      match findVar rest with
      | some (i, name, len) => some (i + 1, name, len)
      | none => none

/-- The replacement loop of expandVariables, with explicit fuel (each
iteration consumes at least the matched pattern, so a fuel of one more
than the length of s always suffices; see expandAux_fuel). The error
carries the name of the variable that was not found. -/
def expandAux (lookup : List Char → Option (List Char)) :
    Nat → List Char → Except (List Char) (List Char)
  | 0, _ => .error []
  | f + 1, s =>
    match findVar s with
    | none => .ok s
    | some (i, name, len) =>
      match lookup name with
      | none => .error name
      | some v =>
        match expandAux lookup f (s.drop (i + len)) with
        | .error e => .error e
        | .ok t => .ok (s.take i ++ (v ++ t))

/-- expandVariables of cmdtest.go: substitute every variable reference in
s using lookup, failing with the name of the first (leftmost) variable
that lookup does not know. -/
def expandVariables (s : List Char) (lookup : List Char → Option (List Char)) :
    Except (List Char) (List Char) :=
  expandAux lookup (s.length + 1) s

/-- One or more characters at position i of s form a variable reference:
a name of one or more characters, none of them a dollar or a brace,
wrapped in a dollar-brace pair. This is the meaning of the varRegexp
pattern, used to state properties of the expander. -/
def varMatchAt (s : List Char) (i : Nat) (name : List Char) : Prop :=
  name ≠ [] ∧ (∀ c ∈ name, isNameChar c = true) ∧
    startsWith (s.drop i) ('$' :: '{' :: (name ++ ['}'])) = true

instance (s : List Char) (i : Nat) (name : List Char) :
    Decidable (varMatchAt s i name) := by
  unfold varMatchAt; infer_instance

/-! ### The execution engine (testCase.execute) -/

/-- strings.Fields: split on runs of whitespace; the accumulator holds the
reversed characters of the word being read. -/
def fieldsAux : List Char → List Char → List (List Char)
  | [], acc => if acc = [] then [] else [acc.reverse]
  | c :: rest, acc =>
    if c.isWhitespace then
      if acc = [] then fieldsAux rest [] else acc.reverse :: fieldsAux rest []
    else fieldsAux rest (c :: acc)

/-- strings.Fields of the Go standard library. -/
def fields (s : List Char) : List (List Char) := fieldsAux s []

/-- expandVariables applied to every token in turn, as in the loop over
args in testCase.execute. -/
def expandAll (lookup : List Char → Option (List Char)) :
    List (List Char) → Except (List Char) (List (List Char))
  | [] => .ok []
  | a :: rest =>
    match expandVariables a lookup with
    | .error e => .error e
    | .ok a' =>
      match expandAll lookup rest with
      | .error e => .error e
      | .ok rest' => .ok (a' :: rest')

/-- The outcome of the front part of testCase.execute on one command line:
either an early error return, or the unchecked index access args[0] on an
empty token list (a Go panic), or the command name, remaining arguments
and input redirection file handed to the CommandFunc. -/
inductive execStep where
  | panic
  | fail (e : List Char)
  | proceed (name : List Char) (args : List (List Char)) (infile : List Char)
deriving DecidableEq

/-- The front part of testCase.execute for a single stored command line:
parseCommand, tokenization by strings.Fields, per-token variable
expansion, the unchecked access name := args[0], and the input-redirection
rule on the remaining arguments. Error messages are collapsed into the
fail constructor; the panic constructor marks the out-of-bounds access. -/
def commandStep (lookup : List Char → Option (List Char)) (cmdline : List Char) : execStep :=
  match parseCommand cmdline with
  | .error _ => .fail []
  | .ok (cmd, _, _) =>
    match expandAll lookup (fields cmd) with
    | .error e => .fail e
    | .ok args =>
      match args with
      | [] => .panic
      | name :: args1 =>
        match args1.reverse with
        | last :: sl :: restRev =>
          if sl = ['<'] then .proceed name (sl :: restRev).tail.reverse last
          else .proceed name args1 []
        | _ => .proceed name args1 []

/-! ### Exit-code extraction and expectation checking -/

/-- An error value returned by a command, abstracted to what each of the
three errors.As queries of extractExitCode would find in its wrap chain:
a syscall.Errno, an exec.ExitError exit status, an ExitCodeErr code. -/
structure goError where
  errno : Option Int
  exitStatus : Option Int
  exitCodeErr : Option Int
deriving DecidableEq

/-- extractExitCode of cmdtest.go: the switch tries the syscall.Errno
query first, then the exec.ExitError query, then the ExitCodeErr query. -/
def extractExitCode (e : goError) : Option Int :=
  match e.errno with
  | some n => some n
  | none =>
    match e.exitStatus with
    | some n => some n
    | none =>
      match e.exitCodeErr with
      | some n => some n
      | none => none

/-- Modelled from the spec's words, for comparison with extractExitCode:
the priority order claimed by the specification, namely OS-level process
exit status first, then OS error numbers, then the typed exit-code
error. -/
def specOrderExtract (e : goError) : Option Int :=
  match e.exitStatus with
  | some n => some n
  | none =>
    match e.errno with
    | some n => some n
    | none =>
      match e.exitCodeErr with
      | some n => some n
      | none => none

/-- The expectation-reconciliation tail of testCase.execute: err is the
result of the CommandFunc (none on success), wantFail and wantExitCode
come from parseCommand. -/
def checkExpectation (err : Option goError) (wantFail : Bool) (wantExitCode : Int) :
    Except String Unit :=
  match err with
  | none => if wantFail then .error "succeeded, but it was expected to fail" else .ok ()
  | some e =>
    if !wantFail then .error "failed"
    else if wantExitCode != 0 then
      match extractExitCode e with
      | none => .error "failed without an exit code, but one was expected"
      | some got =>
        if got != wantExitCode then .error "failed with a mismatched exit code"
        else .ok ()
    else .ok ()

/-- Modelled from the spec's words, for comparison with checkExpectation:
the same reconciliation but extracting through the priority order the
specification claims. -/
def specCheckExpectation (err : Option goError) (wantFail : Bool) (wantExitCode : Int) :
    Except String Unit :=
  match err with
  | none => if wantFail then .error "succeeded, but it was expected to fail" else .ok ()
  | some e =>
    if !wantFail then .error "failed"
    else if wantExitCode != 0 then
      match specOrderExtract e with
      | none => .error "failed without an exit code, but one was expected"
      | some got =>
        if got != wantExitCode then .error "failed with a mismatched exit code"
        else .ok ()
    else .ok ()

/-! ### File and suite sequencing (testFile.execute, TestSuite.compare) -/

/-- The loop of testFile.execute over the file's cases, with each case's
run abstracted to its outcome. Returns how many cases were executed and
the error that stopped the file, if any: the loop returns at the first
case whose execution yields an error. -/
def executeCases {ε : Type} : List (Except ε Unit) → Nat × Option ε
  | [] => (0, none)
  | .ok _ :: rest =>
    let p := executeCases rest
    (p.1 + 1, p.2)
  | .error e :: _ => (1, some e)

/-- The loop of TestSuite.compare: a subtest is run for every file of the
suite, each file's outcome recorded independently of the others. -/
def compareSuite {ε : Type} (files : List (List (Except ε Unit))) : List (Option ε) :=
  files.map (fun f => (executeCases f).2)

/-! ### Update mode (TestSuite.update, updateToTemp, simpleTempFile) -/

/-- The primitive file-system operations performed by update mode on the
golden file and its temporary sibling. -/
inductive fsOp (α : Type) where
  | createTemp (c : α)
  | writeTemp (c : α)
  | removeTemp
  | renameTempToOrig
deriving DecidableEq

/-- The observable file-system state: the content of the golden file and
the content of the temporary file when it exists. -/
structure fsState (α : Type) where
  orig : α
  temp : Option α
deriving DecidableEq

/-- The effect of one primitive operation on the file-system state. -/
def applyOp {α : Type} (st : fsState α) : fsOp α → fsState α
  | .createTemp c => { st with temp := some c }
  | .writeTemp c => { st with temp := some c }
  | .removeTemp => { st with temp := none }
  | .renameTempToOrig =>
    match st.temp with
    | some c => { orig := c, temp := none }
    | none => st

/-- The flags of a simpleTempFile handle (tempFileWindows.go). -/
structure tempHandle where
  closed : Bool
  done : Bool
deriving DecidableEq

/-- Which steps of one update run succeed: tf.execute, the temp-file
creation, tf.write, and the Sync, Close and Rename steps of
CloseAtomicallyReplace. Closing and removing a local file in Cleanup are
modelled as always succeeding. -/
structure updateEnv where
  execOk : Bool
  createOk : Bool
  writeOk : Bool
  syncOk : Bool
  closeOk : Bool
  renameOk : Bool
deriving DecidableEq

/-- testFile.updateToTemp: execute the file, create the temporary file
(with the initial empty content e0), and write the new content to it.
Returns the state, the handle when a temporary file was created, whether
an error occurred, and the trace of file-system operations. -/
def updateToTemp {α : Type} (env : updateEnv) (e0 newC : α) (st : fsState α) :
    fsState α × Option tempHandle × Bool × List (fsOp α) :=
  if !env.execOk then (st, none, true, [])
  else if !env.createOk then (st, none, true, [])
  else
    let st1 := applyOp st (.createTemp e0)
    if env.writeOk then
      (applyOp st1 (.writeTemp newC), some ⟨false, false⟩, false, [.createTemp e0, .writeTemp newC])
    else
      (st1, some ⟨false, false⟩, true, [.createTemp e0])

/-- simpleTempFile.Cleanup: a no-op when the rename already succeeded,
otherwise close (if still open) and remove the temporary file. -/
def cleanupTemp {α : Type} (h : tempHandle) (st : fsState α) :
    fsState α × List (fsOp α) :=
  if h.done then (st, [])
  else (applyOp st .removeTemp, [.removeTemp])

/-- simpleTempFile.CloseAtomicallyReplace: sync, close, then rename over
the original; the done flag is set only after a successful rename. -/
def closeAtomicallyReplace {α : Type} (env : updateEnv) (h : tempHandle) (st : fsState α) :
    fsState α × tempHandle × Bool × List (fsOp α) :=
  if !env.syncOk then (st, h, true, [])
  else
    let h1 := { h with closed := true }
    if !env.closeOk then (st, h1, true, [])
    else if !env.renameOk then (st, h1, true, [])
    else (applyOp st .renameTempToOrig, { h1 with done := true }, false, [.renameTempToOrig])

/-- The body of the per-file subtest of TestSuite.update: updateToTemp,
the deferred Cleanup, and CloseAtomicallyReplace, in the control flow of
the Go code (t.Fatal runs the deferred Cleanup before aborting). Returns
the final state, whether the update succeeded, and the operation trace. -/
def updateFile {α : Type} (env : updateEnv) (e0 newC : α) (st : fsState α) :
    fsState α × Bool × List (fsOp α) :=
  let r := updateToTemp env e0 newC st
  match r.2.1 with
  | none => (r.1, false, r.2.2.2)
  | some h =>
    if r.2.2.1 then
      let c := cleanupTemp h r.1
      (c.1, false, r.2.2.2 ++ c.2)
    else
      let cr := closeAtomicallyReplace env h r.1
      let c := cleanupTemp cr.2.1 cr.1
      (c.1, !cr.2.2.1, r.2.2.2 ++ cr.2.2.2 ++ c.2)

/-! ## Helper lemmas -/

theorem dropWhile_head_false {α : Type} (p : α → Bool) (l : List α) (x : α) (xs : List α)
    (h : l.dropWhile p = x :: xs) : p x = false := by
  induction l with
  | nil => simp at h
  | cons a as ih =>
    by_cases hp : p a
    · rw [List.dropWhile_cons_of_pos hp] at h
      exact ih h
    · rw [List.dropWhile_cons_of_neg hp] at h
      cases h
      exact Bool.not_eq_true _ |>.mp hp

theorem splitIgnorable_append (out : List Line) :
    (splitIgnorableSuffix out).1 ++ (splitIgnorableSuffix out).2 = out := by
  simp only [splitIgnorableSuffix]
  rw [← List.reverse_append, List.takeWhile_append_dropWhile, List.reverse_reverse]

theorem startsWith_iff (pat : List Char) : ∀ s, startsWith s pat = true ↔ ∃ t, s = pat ++ t := by
  induction pat with
  | nil => intro s; simp [startsWith]
  | cons b bs ih =>
    intro s
    cases s with
    | nil =>
      simp only [startsWith, Bool.false_eq_true, false_iff]
      rintro ⟨t, ht⟩
      simp at ht
    | cons a as =>
      simp only [startsWith, Bool.and_eq_true, decide_eq_true_eq, ih]
      constructor
      · rintro ⟨rfl, t, rfl⟩
        exact ⟨t, rfl⟩
      · rintro ⟨t, ht⟩
        cases ht
        exact ⟨rfl, t, rfl⟩

theorem startsWith_append (pat t : List Char) : startsWith (pat ++ t) pat = true :=
  (startsWith_iff _ _).mpr ⟨t, rfl⟩

theorem startsWith_nil_false (sub : List Char) (h : sub ≠ []) : startsWith [] sub = false := by
  cases sub with
  | nil => exact absurd rfl h
  | cons b bs => rfl

theorem occursIn_false (s sub : List Char) (hsub : sub ≠ [])
    (h : occursIn s sub = false) : ∀ i, startsWith (s.drop i) sub = false := by
  intro i
  by_cases hi : i ≤ s.length
  · simp only [occursIn] at h
    have hmem : i ∈ List.range (s.length + 1) := List.mem_range.mpr (Nat.lt_succ_of_le hi)
    have := List.any_eq_false.mp h i hmem
    simpa using this
  · rw [List.drop_eq_nil_of_le (by omega)]
    exact startsWith_nil_false sub hsub

theorem lastIndexFrom_eq_some (s sub : List Char) (t : Nat) :
    ∀ m, t ≤ m → startsWith (s.drop t) sub = true →
    (∀ i, t < i → i ≤ m → startsWith (s.drop i) sub = false) →
    lastIndexFrom s sub m = some t := by
  intro m
  induction m with
  | zero =>
    intro ht hp _
    interval_cases t
    rw [List.drop_zero] at hp
    simp [lastIndexFrom, hp]
  | succ m ih =>
    intro ht hp hmax
    by_cases he : t = m + 1
    · subst he
      simp [lastIndexFrom, hp]
    · have hfalse : startsWith (s.drop (m + 1)) sub = false := hmax (m + 1) (by omega) (le_refl _)
      simp only [lastIndexFrom, hfalse, Bool.false_eq_true, if_false]
      exact ih (by omega) hp (fun i h1 h2 => hmax i h1 (by omega))

theorem lastIndexFrom_eq_none (s sub : List Char) :
    ∀ m, (∀ i, i ≤ m → startsWith (s.drop i) sub = false) →
    lastIndexFrom s sub m = none := by
  intro m
  induction m with
  | zero =>
    intro h
    have := h 0 (le_refl _)
    rw [List.drop_zero] at this
    simp [lastIndexFrom, this]
  | succ m ih =>
    intro h
    have hfalse := h (m + 1) (le_refl _)
    simp only [lastIndexFrom, hfalse, Bool.false_eq_true, if_false]
    exact ih (fun i hi => h i (by omega))

theorem failMarker_ne_nil : failMarker ≠ [] := by decide

theorem failMarker_no_overlap :
    ∀ k, k < 9 → 0 < k → ¬ (failMarker.drop k = failMarker.take (9 - k)) := by
  decide

theorem startsWith_mid_false (post : List Char) (k : Nat) (h1 : 0 < k) (h2 : k < 9) :
    startsWith (failMarker.drop k ++ post) failMarker = false := by
  by_contra hc
  rw [Bool.not_eq_false] at hc
  obtain ⟨t, ht⟩ := (startsWith_iff _ _).mp hc
  have hlen : (failMarker.drop k).length = 9 - k := by
    rw [List.length_drop]
    rfl
  have e1 : (failMarker.drop k ++ post).take (9 - k) = failMarker.drop k := by
    rw [← hlen]
    exact List.take_left _ _
  have e2 : (failMarker ++ t).take (9 - k) = failMarker.take (9 - k) := by
    rw [List.take_append_eq_append_take]
    have h9 : failMarker.length = 9 := rfl
    have : 9 - k - failMarker.length = 0 := by rw [h9]; omega
    rw [this]
    simp
  rw [ht, e2] at e1
  exact failMarker_no_overlap k h2 h1 e1.symm

theorem lastIndex_split (pre post : List Char) (hpost : occursIn post failMarker = false) :
    lastIndex (pre ++ failMarker ++ post) failMarker = some pre.length := by
  have h9 : failMarker.length = 9 := rfl
  have hlen : (pre ++ failMarker ++ post).length = pre.length + 9 + post.length := by
    simp [List.length_append, h9]
    omega
  apply lastIndexFrom_eq_some
  · rw [hlen]; omega
  · have hd : (pre ++ failMarker ++ post).drop pre.length = failMarker ++ post := by
      rw [List.append_assoc]
      exact List.drop_left _ _
    rw [hd]
    exact startsWith_append _ _
  · intro i hgt hle
    by_cases hmid : i < pre.length + 9
    · obtain ⟨k, rfl⟩ : ∃ k, i = pre.length + k := ⟨i - pre.length, by omega⟩
      have hdrop : (pre ++ failMarker ++ post).drop (pre.length + k)
          = failMarker.drop k ++ post := by
        rw [List.append_assoc, List.drop_append, List.drop_append_eq_append_drop]
        have hk0 : k - failMarker.length = 0 := by rw [h9]; omega
        rw [hk0, List.drop_zero]
      rw [hdrop]
      exact startsWith_mid_false post k (by omega) (by omega)
    · have hl2 : (pre ++ failMarker).length = pre.length + 9 := by
        rw [List.length_append, h9]
      obtain ⟨j, rfl⟩ : ∃ j, i = (pre ++ failMarker).length + j :=
        ⟨i - (pre.length + 9), by omega⟩
      have hdrop : (pre ++ failMarker ++ post).drop ((pre ++ failMarker).length + j)
          = post.drop j := List.drop_append j
      rw [hdrop]
      exact occursIn_false post failMarker failMarker_ne_nil hpost _

theorem parseCommand_no_marker (line : List Char) (h : occursIn line failMarker = false) :
    parseCommand line = .ok (line, false, 0) := by
  have hnone : lastIndex line failMarker = none :=
    lastIndexFrom_eq_none _ _ _
      (fun i _ => occursIn_false line failMarker failMarker_ne_nil h i)
  simp [parseCommand, hnone]

theorem parseCommand_marker (pre post : List Char) (hpost : occursIn post failMarker = false) :
    parseCommand (pre ++ failMarker ++ post) =
      (if trimSpace post = [] then .ok (pre, true, 0)
       else
        match atoi (trimSpace post) with
        | .error e => .error e
        | .ok n =>
          if n = 0 then .error "cannot use 0 as a FAIL exit code"
          else .ok (pre, true, n)) := by
  have hli := lastIndex_split pre post hpost
  have htake : (pre ++ failMarker ++ post).take pre.length = pre := by
    rw [List.append_assoc]
    exact List.take_left _ _
  have hdrop : (pre ++ failMarker ++ post).drop (pre.length + failMarker.length) = post := by
    rw [← List.length_append pre failMarker, List.drop_left]
  simp only [parseCommand, hli, htake, hdrop]

/-! ## Claim C3: parseCommand -/

/-- Claim C3: parseCommand finds the rightmost occurrence of the literal
marker " --> FAIL". When the marker is absent the whole line is the
command, with mustFail false and no exit code. When it is present the
command is everything before the marker and mustFail is true; the
trimmed remainder after the marker, when empty, demands no specific exit
code; when non-empty it must parse as a non-zero integer which becomes
the wanted exit code, a remainder of zero or a non-integer remainder
being an error. -/
theorem parseCommand_correct (line pre post : List Char) :
    (occursIn line failMarker = false → parseCommand line = .ok (line, false, 0)) ∧
    (line = pre ++ failMarker ++ post → occursIn post failMarker = false →
      ((trimSpace post = [] → parseCommand line = .ok (pre, true, 0)) ∧
       (∀ n : Int, atoi (trimSpace post) = .ok n → n ≠ 0 →
         parseCommand line = .ok (pre, true, n)) ∧
       (atoi (trimSpace post) = .ok 0 →
         parseCommand line = .error "cannot use 0 as a FAIL exit code") ∧
       (trimSpace post ≠ [] → ∀ msg, atoi (trimSpace post) = .error msg →
         parseCommand line = .error msg))) := by
  constructor
  · exact parseCommand_no_marker line
  · rintro rfl hpost
    have heq := parseCommand_marker pre post hpost
    refine ⟨?_, ?_, ?_, ?_⟩
    · intro h0
      rw [heq, if_pos h0]
    · intro n hn hne
      have hne' : trimSpace post ≠ [] := by
        intro h0
        rw [h0] at hn
        simp [atoi] at hn
      rw [heq, if_neg hne', hn]
      simp [hne]
    · intro h0
      have hne' : trimSpace post ≠ [] := by
        intro hh
        rw [hh] at h0
        simp [atoi] at h0
      rw [heq, if_neg hne', h0]
      simp
    · intro hne' msg hmsg
      rw [heq, if_neg hne', hmsg]

/-- Witness for parseCommand_correct: the line "ls --> FAIL 3" parses to
command "ls", mustFail true, wanted exit code 3. -/
theorem parseCommand_correct_witness :
    parseCommand ("ls --> FAIL 3".toList) = .ok ("ls".toList, true, 3) :=
  ((parseCommand_correct ("ls --> FAIL 3".toList) ("ls".toList) (" 3".toList)).2
    (by decide) (by decide)).2.1 3 (by decide) (by decide)

/-! ## Claim C5: the output trimming rule of testFile.addCase -/

/-- Counterexample to claim C5 as stated. The claim reads: everything
from the last non-blank, non-comment line onward is the suffix, and
everything before that line is kept as wantOutput. For a collected
output consisting of the single non-blank, non-comment line "x", that
predicts a suffix of ["x"] and an empty wantOutput; the code instead
keeps "x" in wantOutput and returns an empty suffix. -/
theorem addCase_counterexample :
    isIgnorableLine ['x'] = false ∧
    (addCase ⟨[], []⟩ ⟨[], 0, [['c']], [['x']], none⟩).2 = [] ∧
    (addCase ⟨[], []⟩ ⟨[], 0, [['c']], [['x']], none⟩).1.cases.map testCase.wantOutput
      = [[['x']]] := by
  decide

/-- Claim C5, amended: when a test case is closed, its collected output
is split by scanning from the end; everything strictly after the last
non-blank, non-comment line is the returned suffix, and everything up to
and including that line is kept as wantOutput. An output block made
entirely of blank or comment lines yields an empty wantOutput. -/
theorem addCase_spec (tf : testFile) (tc : testCase) :
    ∃ keep,
      (addCase tf tc).1.cases = tf.cases ++ [{ tc with wantOutput := keep }] ∧
      keep ++ (addCase tf tc).2 = tc.wantOutput ∧
      (∀ l ∈ (addCase tf tc).2, isIgnorableLine l = true) ∧
      (∀ l, keep.getLast? = some l → isIgnorableLine l = false) ∧
      ((∀ l ∈ tc.wantOutput, isIgnorableLine l = true) → keep = []) ∧
      (addCase tf tc).1.suffix = tf.suffix := by
  refine ⟨(splitIgnorableSuffix tc.wantOutput).1, rfl, splitIgnorable_append _, ?_, ?_, ?_, rfl⟩
  · intro l hl
    simp only [addCase, splitIgnorableSuffix, List.mem_reverse] at hl
    exact List.mem_takeWhile_imp hl
  · intro l hl
    simp only [splitIgnorableSuffix, List.getLast?_reverse] at hl
    rcases hhead : tc.wantOutput.reverse.dropWhile isIgnorableLine with _ | ⟨x, xs⟩
    · rw [hhead] at hl; simp at hl
    · rw [hhead] at hl
      simp only [List.head?_cons, Option.some.injEq] at hl
      subst hl
      exact dropWhile_head_false _ _ _ _ hhead
  · intro hall
    simp only [splitIgnorableSuffix, List.reverse_eq_nil_iff]
    rw [List.dropWhile_eq_nil_iff]
    intro x hx
    exact hall x (List.mem_reverse.mp hx)

/-- Witness for addCase_spec at a concrete case whose collected output is
["a", "", "#"]: the code keeps ["a"] and returns ["", "#"]. -/
theorem addCase_spec_witness :
    ∃ keep,
      (addCase ⟨[], []⟩ ⟨[], 0, [['c']], [['a'], [], ['#']], none⟩).1.cases
        = [] ++ [{ (⟨[], 0, [['c']], [['a'], [], ['#']], none⟩ : testCase) with wantOutput := keep }] ∧
      keep ++ (addCase ⟨[], []⟩ ⟨[], 0, [['c']], [['a'], [], ['#']], none⟩).2
        = [['a'], [], ['#']] ∧
      (∀ l ∈ (addCase ⟨[], []⟩ ⟨[], 0, [['c']], [['a'], [], ['#']], none⟩).2,
        isIgnorableLine l = true) ∧
      (∀ l, keep.getLast? = some l → isIgnorableLine l = false) ∧
      ((∀ l ∈ ([['a'], [], ['#']] : List Line), isIgnorableLine l = true) → keep = []) ∧
      (addCase ⟨[], []⟩ ⟨[], 0, [['c']], [['a'], [], ['#']], none⟩).1.suffix = [] :=
  addCase_spec ⟨[], []⟩ ⟨[], 0, [['c']], [['a'], [], ['#']], none⟩

/-! ## Claim C1: the parse-then-write round trip -/

theorem trimSpace_space_cons (t : List Char) : trimSpace (' ' :: t) = trimSpace t := by
  simp only [trimSpace]
  rw [List.dropWhile_cons_of_pos (by decide)]

theorem writeCase_no_got (tc : testCase) (h : tc.gotOutput = none) :
    writeCase tc = tc.before ++ writeCommands tc ++ tc.wantOutput := by
  simp [writeCase, h]

theorem writeCommands_set_output (tc : testCase) (out : List Line) :
    writeCommands { tc with wantOutput := out } = writeCommands tc := rfl

theorem readLoop_write_inv (rest : List Line) :
    ∀ (tf : testFile) (tc : testCase) (n : Nat) (b : Bool) (tfr : testFile),
    (∀ l ∈ rest, isCommandLine l = true → ∃ t, l = '$' :: ' ' :: t ∧ trimSpace t = t) →
    tc.gotOutput = none →
    (b = true → tc.wantOutput = []) →
    readLoop tf (if b then .inCommands tc else .inOutput tc) n rest = .ok tfr →
    write tfr = (tf.cases.map writeCase).flatten
      ++ (tc.before ++ (writeCommands tc ++ (tc.wantOutput ++ rest))) := by
  induction rest with
  | nil =>
    intro tf tc n b tfr _ hgot hb h
    have hkey : ∀ tfr', (let p := addCase tf tc; ({ p.1 with suffix := p.2 } : testFile)) = tfr' →
        write tfr' = (tf.cases.map writeCase).flatten
          ++ (tc.before ++ (writeCommands tc ++ (tc.wantOutput ++ []))) := by
      rintro tfr' rfl
      simp only [write, addCase, List.map_append, List.flatten_append, List.map_cons,
        List.map_nil, List.flatten_cons, List.flatten_nil, List.append_nil]
      rw [writeCase_no_got _ (by simpa using hgot)]
      simp only [writeCommands_set_output]
      simp only [List.append_assoc]
      rw [splitIgnorable_append tc.wantOutput]
    cases b
    · simp only [if_false, Bool.false_eq_true] at h
      simp only [readLoop] at h
      exact hkey tfr (by injection h)
    · simp only [if_true] at h
      simp only [readLoop] at h
      exact hkey tfr (by injection h)
  | cons line rest ih =>
    intro tf tc n b tfr hcanon hgot hb h
    have hcanon' : ∀ l ∈ rest, isCommandLine l = true →
        ∃ t, l = '$' :: ' ' :: t ∧ trimSpace t = t :=
      fun l hl => hcanon l (List.mem_cons_of_mem line hl)
    by_cases hcl : isCommandLine line
    · obtain ⟨t, rfl, htrim⟩ := hcanon line (List.mem_cons_self line rest) hcl
      have hstored : trimSpace (('$' :: ' ' :: t).tail) = t := by
        simp only [List.tail_cons]
        rw [trimSpace_space_cons, htrim]
      cases b
      · -- inOutput: the command line closes the case
        simp only [if_false, Bool.false_eq_true] at h
        simp only [readLoop, hcl, if_true] at h
        have := ih (addCase tf tc).1 (addCommandLine ⟨(addCase tf tc).2, n + 1, [], [], none⟩
            ('$' :: ' ' :: t)) (n + 1) true tfr hcanon' rfl (fun _ => rfl) (by simpa using h)
        rw [this]
        simp only [addCase, addCommandLine, List.map_append, List.flatten_append,
          List.map_cons, List.map_nil, List.flatten_cons, List.flatten_nil, List.append_nil]
        rw [writeCase_no_got _ (by simpa using hgot)]
        simp only [writeCommands_set_output, writeCommands, List.map_cons, List.map_nil,
          List.map_append, hstored]
        simp only [List.append_assoc, List.nil_append, List.append_nil]
        rw [← List.append_assoc (splitIgnorableSuffix tc.wantOutput).1]
        rw [splitIgnorable_append tc.wantOutput]
        simp [writeCommands, List.append_assoc]
      · -- inCommands: the command line extends the case
        simp only [if_true] at h
        simp only [readLoop, hcl, if_true] at h
        have hw : tc.wantOutput = [] := hb rfl
        have := ih tf (addCommandLine tc ('$' :: ' ' :: t)) (n + 1) true tfr hcanon'
          (by simpa [addCommandLine] using hgot) (fun _ => by simp [addCommandLine, hw])
          (by simpa using h)
        rw [this]
        simp only [addCommandLine, hstored, writeCommands, List.map_append, List.map_cons,
          List.map_nil, hw]
        simp [List.append_assoc]
    · cases b
      · -- inOutput: an output line accumulates
        simp only [if_false, Bool.false_eq_true] at h
        simp only [readLoop, hcl, Bool.false_eq_true, if_false] at h
        have := ih tf { tc with wantOutput := tc.wantOutput ++ [line] } (n + 1) false tfr
          hcanon' (by simpa using hgot) (by simp) (by simpa using h)
        rw [this]
        simp only [writeCommands_set_output]
        simp [List.append_assoc]
      · -- inCommands: the first output line moves to the output state
        simp only [if_true] at h
        simp only [readLoop, hcl, Bool.false_eq_true, if_false] at h
        have hw : tc.wantOutput = [] := hb rfl
        have := ih tf { tc with wantOutput := tc.wantOutput ++ [line] } (n + 1) false tfr
          hcanon' (by simpa using hgot) (by simp) (by simpa using h)
        rw [this]
        simp only [writeCommands_set_output, hw]
        simp [List.append_assoc]

theorem readLoop_before_inv (rest : List Line) :
    ∀ (tf : testFile) (pre : List Line) (n : Nat) (tfr : testFile),
    (∀ l ∈ rest, isCommandLine l = true → ∃ t, l = '$' :: ' ' :: t ∧ trimSpace t = t) →
    (∀ l ∈ rest.takeWhile (fun l => !isCommandLine l), trimSpace l = l) →
    rest.any isCommandLine = true →
    readLoop tf (.beforeFirst pre) n rest = .ok tfr →
    write tfr = (tf.cases.map writeCase).flatten ++ (pre ++ rest) := by
  induction rest with
  | nil =>
    intro tf pre n tfr _ _ hany _
    simp at hany
  | cons line rest ih =>
    intro tf pre n tfr hcanon htrim hany h
    by_cases hcl : isCommandLine line
    · obtain ⟨t, rfl, htrimt⟩ := hcanon line (List.mem_cons_self line rest) hcl
      have hstored : trimSpace (('$' :: ' ' :: t).tail) = t := by
        simp only [List.tail_cons]
        rw [trimSpace_space_cons, htrimt]
      simp only [readLoop, hcl, if_true] at h
      have := readLoop_write_inv rest tf
        (addCommandLine ⟨pre, n + 1, [], [], none⟩ ('$' :: ' ' :: t)) (n + 1) true tfr
        (fun l hl => hcanon l (List.mem_cons_of_mem _ hl)) rfl (fun _ => rfl)
        (by simpa using h)
      rw [this]
      simp only [addCommandLine, hstored, writeCommands]
      simp [List.append_assoc]
    · simp only [readLoop, hcl, Bool.false_eq_true, if_false] at h
      have hline : trimSpace line = line := by
        apply htrim
        rw [List.takeWhile_cons_of_pos (by simp [hcl])]
        exact List.mem_cons_self _ _
      by_cases hig : isIgnorableLine (trimSpace line)
      · rw [if_pos hig] at h
        have := ih tf (pre ++ [trimSpace line]) (n + 1) tfr
          (fun l hl => hcanon l (List.mem_cons_of_mem _ hl))
          (fun l hl => by
            apply htrim
            rw [List.takeWhile_cons_of_pos (by simp [hcl])]
            exact List.mem_cons_of_mem _ hl)
          (by
            simp only [List.any_cons, hcl, Bool.false_or] at hany
            exact hany) h
        rw [this, hline]
        simp [List.append_assoc]
      · rw [if_neg hig] at h
        cases h

/-- Counterexample to claim C1 as stated. The file consisting of the
lines " #x" and "$ c" parses successfully, but the ignorable line before
the first command is stored trimmed ("#x") and written back that way, so
the write is not byte-for-byte and the case's before line is not
reproduced verbatim; the lost leading space is unrelated to the
trailing-blank-line ambiguity the claim allows for. -/
theorem readFile_write_counterexample :
    readFile [[' ', '#', 'x'], ['$', ' ', 'c']]
      = .ok ⟨[⟨[['#', 'x']], 2, [['c']], [], none⟩], []⟩ ∧
    write ⟨[⟨[['#', 'x']], 2, [['c']], [], none⟩], []⟩ = [['#', 'x'], ['$', ' ', 'c']] ∧
    ([['#', 'x'], ['$', ' ', 'c']] : List Line) ≠ [[' ', '#', 'x'], ['$', ' ', 'c']] := by
  decide

/-- Claim C1, amended: for every test-file text (a list of lines) that
parses successfully, in which every line of the ignorable region before
the first command line is already trimmed and every command line is
exactly a dollar sign, one space, and trimmed command text, and which is
empty or contains at least one command line, writing the parsed file
back (all gotOutput nil, so wantOutput is emitted) reproduces the
original lines exactly. Before lines of later cases, output lines and
the suffix are reproduced verbatim unconditionally; the two trimming
hypotheses and the at-least-one-command hypothesis are each forced by
counterexamples (see readFile_write_counterexample for the first). -/
theorem readFile_write_roundtrip (text : List Line) (tf : testFile)
    (hparse : readFile text = .ok tf)
    (hcmds : ∀ l ∈ text, isCommandLine l = true → ∃ t, l = '$' :: ' ' :: t ∧ trimSpace t = t)
    (hpre : ∀ l ∈ text.takeWhile (fun l => !isCommandLine l), trimSpace l = l)
    (hsome : text = [] ∨ text.any isCommandLine = true) :
    write tf = text := by
  rcases hsome with rfl | hany
  · simp only [readFile, readLoop] at hparse
    injection hparse with hparse
    rw [← hparse]
    rfl
  · have := readLoop_before_inv text ⟨[], []⟩ [] 0 tf hcmds hpre hany hparse
    simpa using this

/-- Witness for readFile_write_roundtrip on the file
"# c" / "" / "$ echo hi" / "hi" / "": parsing and writing reproduce the
five lines exactly (including the trailing blank line, which the parser
stores as the file suffix). -/
theorem readFile_write_roundtrip_witness :
    write ⟨[⟨[['#', ' ', 'c'], []], 3, [['e', 'c', 'h', 'o', ' ', 'h', 'i']], [['h', 'i']],
        none⟩], [[]]⟩
      = [['#', ' ', 'c'], [], ['$', ' ', 'e', 'c', 'h', 'o', ' ', 'h', 'i'], ['h', 'i'], []] := by
  apply readFile_write_roundtrip
  · decide
  · intro l hl hcl
    fin_cases hl
    · exact absurd hcl (by decide)
    · exact absurd hcl (by decide)
    · exact ⟨['e', 'c', 'h', 'o', ' ', 'h', 'i'], rfl, by decide⟩
    · exact absurd hcl (by decide)
    · exact absurd hcl (by decide)
  · intro l hl
    have htw : ([['#', ' ', 'c'], [], ['$', ' ', 'e', 'c', 'h', 'o', ' ', 'h', 'i'],
        ['h', 'i'], []] : List Line).takeWhile (fun l => !isCommandLine l)
        = [['#', ' ', 'c'], []] := by decide
    rw [htw] at hl
    fin_cases hl
    · decide
    · decide
  · right
    decide

/-! ## Lemmas on the variable expander -/

theorem takeWhile_append_cons {p : Char → Bool} (l : List Char) (x : Char) (xs : List Char)
    (hl : ∀ c ∈ l, p c = true) (hx : p x = false) :
    (l ++ x :: xs).takeWhile p = l := by
  induction l with
  | nil => simp [List.takeWhile, hx]
  | cons a as ih =>
    have ha : p a = true := hl a (List.mem_cons_self a as)
    simp only [List.cons_append, List.takeWhile_cons, ha, if_true]
    rw [ih (fun c hc => hl c (List.mem_cons_of_mem a hc))]

theorem takeWhile_length_drop (p : Char → Bool) (l : List Char) :
    l.takeWhile p ++ l.drop (l.takeWhile p).length = l := by
  induction l with
  | nil => rfl
  | cons a as ih =>
    by_cases ha : p a
    · simp only [List.takeWhile_cons, ha, if_true, List.length_cons, List.cons_append,
        List.drop_succ_cons]
      rw [ih]
    · simp only [List.takeWhile_cons, ha, if_false]
      simp

theorem isNameChar_rbrace : isNameChar '}' = false := by decide

theorem matchVarAt_of_varMatch (s name : List Char) (h : varMatchAt s 0 name) :
    matchVarAt s = some (name, name.length + 3) := by
  obtain ⟨hne, hchars, hsw⟩ := h
  rw [List.drop_zero] at hsw
  obtain ⟨t, ht⟩ := (startsWith_iff _ _).mp hsw
  have hs : s = '$' :: '{' :: (name ++ '}' :: t) := by
    rw [ht]
    simp
  subst hs
  have htw : (name ++ '}' :: t).takeWhile isNameChar = name :=
    takeWhile_append_cons name '}' t hchars isNameChar_rbrace
  have hdr : (name ++ '}' :: t).drop name.length = '}' :: t := List.drop_left _ _
  simp only [matchVarAt]
  rw [htw, if_neg hne, hdr]
  split
  · rfl
  · rename_i hx
    exact absurd rfl (hx t)

theorem varMatch_of_matchVarAt (s name : List Char) (len : Nat)
    (h : matchVarAt s = some (name, len)) :
    varMatchAt s 0 name ∧ len = name.length + 3 := by
  unfold matchVarAt at h
  split at h
  case h_2 => exact absurd h (by simp)
  case h_1 rest =>
    split at h
    case isTrue => exact absurd h (by simp)
    case isFalse hne =>
      split at h
      case h_2 => exact absurd h (by simp)
      case h_1 tl heq =>
        simp only [Option.some.injEq, Prod.mk.injEq] at h
        obtain ⟨rfl, rfl⟩ := h
        refine ⟨⟨hne, ?_, ?_⟩, rfl⟩
        · intro c hc
          exact List.mem_takeWhile_imp hc
        · rw [List.drop_zero]
          apply (startsWith_iff _ _).mpr
          refine ⟨tl, ?_⟩
          have hr : rest = rest.takeWhile isNameChar ++ '}' :: tl := by
            conv_lhs => rw [← takeWhile_length_drop isNameChar rest]
            rw [heq]
          conv_lhs => rw [hr]
          simp

theorem varMatchAt_cons_succ (c : Char) (rest : List Char) (j : Nat) (n : List Char) :
    varMatchAt (c :: rest) (j + 1) n ↔ varMatchAt rest j n := Iff.rfl

theorem varMatchAt_unique (s : List Char) (i : Nat) (n1 n2 : List Char)
    (h1 : varMatchAt s i n1) (h2 : varMatchAt s i n2) : n1 = n2 := by
  obtain ⟨hne1, hc1, hs1⟩ := h1
  obtain ⟨hne2, hc2, hs2⟩ := h2
  obtain ⟨t1, ht1⟩ := (startsWith_iff _ _).mp hs1
  obtain ⟨t2, ht2⟩ := (startsWith_iff _ _).mp hs2
  rw [ht1] at ht2
  simp only [List.cons_append, List.cons.injEq, true_and] at ht2
  have e : n1 ++ '}' :: t1 = n2 ++ '}' :: t2 := by
    have := ht2
    simpa using this
  have e1 : (n1 ++ '}' :: t1).takeWhile isNameChar = n1 :=
    takeWhile_append_cons n1 '}' t1 hc1 isNameChar_rbrace
  have e2 : (n2 ++ '}' :: t2).takeWhile isNameChar = n2 :=
    takeWhile_append_cons n2 '}' t2 hc2 isNameChar_rbrace
  rw [← e1, e, e2]

theorem findVar_some (s : List Char) :
    ∀ i name len, findVar s = some (i, name, len) →
      varMatchAt s i name ∧ len = name.length + 3 ∧
        ∀ j, j < i → ∀ n, ¬ varMatchAt s j n := by
  induction s with
  | nil => intro i name len h; simp [findVar] at h
  | cons c rest ih =>
    intro i name len h
    unfold findVar at h
    split at h
    case h_1 nm l hm =>
      simp only [Option.some.injEq, Prod.mk.injEq] at h
      obtain ⟨rfl, rfl, rfl⟩ := h
      obtain ⟨hv, hl⟩ := varMatch_of_matchVarAt _ _ _ hm
      exact ⟨hv, hl, fun j hj => absurd hj (by omega)⟩
    case h_2 hm =>
      split at h
      case h_2 => exact absurd h (by simp)
      case h_1 i0 nm l hrest =>
        simp only [Option.some.injEq, Prod.mk.injEq] at h
        obtain ⟨rfl, rfl, rfl⟩ := h
        obtain ⟨hv, hl, hleft⟩ := ih i0 nm l hrest
        refine ⟨hv, hl, ?_⟩
        intro j hj n hn
        cases j with
        | zero =>
          exact absurd (matchVarAt_of_varMatch _ _ hn) (by rw [hm]; simp)
        | succ j' =>
          exact hleft j' (by omega) n ((varMatchAt_cons_succ c rest j' n).mp hn)

theorem findVar_none (s : List Char) (h : findVar s = none) :
    ∀ i name, ¬ varMatchAt s i name := by
  induction s with
  | nil =>
    intro i name hm
    obtain ⟨hne, _, hsw⟩ := hm
    rw [List.drop_nil] at hsw
    simp [startsWith] at hsw
  | cons c rest ih =>
    intro i name hm
    unfold findVar at h
    split at h
    case h_1 => simp at h
    case h_2 hm0 =>
      cases i with
      | zero =>
        exact absurd (matchVarAt_of_varMatch _ _ hm) (by rw [hm0]; simp)
      | succ j =>
        have hrest : findVar rest = none := by
          rcases hfv : findVar rest with _ | ⟨⟨i0, nm, l⟩⟩
          · rfl
          · rw [hfv] at h
            simp at h
        exact ih hrest j name ((varMatchAt_cons_succ c rest j name).mp hm)

theorem findVar_eq_of_match (s : List Char) (i : Nat) (name : List Char)
    (hm : varMatchAt s i name)
    (hleft : ∀ j, j < i → ∀ n, ¬ varMatchAt s j n) :
    findVar s = some (i, name, name.length + 3) := by
  rcases hfv : findVar s with _ | ⟨⟨i0, nm, l⟩⟩
  · exact absurd hm (findVar_none s hfv i name)
  · obtain ⟨hv0, hl0, hleft0⟩ := findVar_some s i0 nm l hfv
    have hii : i0 = i := by
      by_contra hne
      rcases Nat.lt_or_ge i0 i with hlt | hge
      · exact hleft i0 hlt nm hv0
      · exact hleft0 i (by omega) name hm
    subst hii
    have : nm = name := varMatchAt_unique s i0 nm name hv0 hm
    subst this
    rw [hl0]

theorem varMatchAt_head (s : List Char) (i : Nat) (name : List Char)
    (h : varMatchAt s i name) : s[i]? = some '$' := by
  obtain ⟨_, _, hsw⟩ := h
  obtain ⟨t, ht⟩ := (startsWith_iff _ _).mp hsw
  have h0 : (s.drop i)[0]? = some '$' := by rw [ht]; rfl
  rw [List.getElem?_drop] at h0
  simpa using h0

theorem no_dollar_no_match (r : List Char) (h : '$' ∉ r) :
    ∀ i name, ¬ varMatchAt r i name := by
  intro i name hm
  exact h (List.mem_iff_getElem?.mpr ⟨i, varMatchAt_head r i name hm⟩)

theorem findVar_bounds (s : List Char) (i : Nat) (name : List Char) (len : Nat)
    (h : findVar s = some (i, name, len)) : i + len ≤ s.length ∧ 4 ≤ len := by
  obtain ⟨⟨hne, _, hsw⟩, hlen, _⟩ := findVar_some s i name len h
  obtain ⟨t, ht⟩ := (startsWith_iff _ _).mp hsw
  have hlen2 := congrArg List.length ht
  rw [List.length_drop] at hlen2
  simp [List.length_append] at hlen2
  have hnl : 1 ≤ name.length := by
    cases name with
    | nil => exact absurd rfl hne
    | cons a as => simp
  subst hlen
  omega

theorem expandAux_unfold (lookup : List Char → Option (List Char)) (f : Nat) (s : List Char) :
    expandAux lookup (f + 1) s =
      match findVar s with
      | none => .ok s
      | some (i, name, len) =>
        match lookup name with
        | none => .error name
        | some v =>
          match expandAux lookup f (s.drop (i + len)) with
          | .error e => .error e
          | .ok t => .ok (s.take i ++ (v ++ t)) := rfl

theorem expandAux_fuel (lookup : List Char → Option (List Char)) :
    ∀ f1 s f2, s.length < f1 → s.length < f2 →
      expandAux lookup f1 s = expandAux lookup f2 s := by
  intro f1
  induction f1 with
  | zero => intro s f2 h1 _; omega
  | succ a ih =>
    intro s f2 h1 h2
    cases f2 with
    | zero => omega
    | succ b =>
      rw [expandAux_unfold, expandAux_unfold]
      rcases hfv : findVar s with _ | ⟨⟨i, name, len⟩⟩
      · simp only [hfv]
      · simp only [hfv]
        rcases hlk : lookup name with _ | v
        · simp only [hlk]
        · simp only [hlk]
          have hb := findVar_bounds s i name len hfv
          have hdl : (s.drop (i + len)).length = s.length - (i + len) :=
            List.length_drop _ _
          rw [ih (s.drop (i + len)) b (by omega) (by omega)]

theorem expandVariables_no_var (s : List Char) (lookup : List Char → Option (List Char))
    (h : findVar s = none) : expandVariables s lookup = .ok s := by
  show expandAux lookup (s.length + 1) s = .ok s
  rw [expandAux_unfold]
  simp only [h]

theorem expandVariables_not_found (s : List Char) (lookup : List Char → Option (List Char))
    (i : Nat) (name : List Char) (len : Nat)
    (h : findVar s = some (i, name, len)) (hl : lookup name = none) :
    expandVariables s lookup = .error name := by
  show expandAux lookup (s.length + 1) s = .error name
  rw [expandAux_unfold]
  simp only [h, hl]

theorem expandVariables_step (s : List Char) (lookup : List Char → Option (List Char))
    (i : Nat) (name : List Char) (len : Nat) (v : List Char)
    (h : findVar s = some (i, name, len)) (hl : lookup name = some v) :
    expandVariables s lookup
      = (expandVariables (s.drop (i + len)) lookup).map (fun t => s.take i ++ (v ++ t)) := by
  have hb := findVar_bounds s i name len h
  have hdl : (s.drop (i + len)).length = s.length - (i + len) := List.length_drop _ _
  have hfuel : expandAux lookup s.length (s.drop (i + len))
      = expandAux lookup ((s.drop (i + len)).length + 1) (s.drop (i + len)) :=
    expandAux_fuel lookup s.length _ _ (by omega) (by omega)
  show expandAux lookup (s.length + 1) s
      = (expandAux lookup ((s.drop (i + len)).length + 1) (s.drop (i + len))).map
          (fun t => s.take i ++ (v ++ t))
  rw [expandAux_unfold]
  simp only [h, hl, hfuel]
  rcases hrec : expandAux lookup ((s.drop (i + len)).length + 1) (s.drop (i + len)) with e | t
  · simp only [hrec]
    rfl
  · simp only [hrec]
    rfl

/-! ## Claim C4: the behavior of expandVariables -/

/-- Claim C4: expandVariables repeatedly finds the leftmost variable
reference (a name of one or more characters, none of them a dollar or a
brace, wrapped in a dollar-brace pair); when the lookup knows the name
the value is substituted and scanning continues strictly after the
matched reference (the substituted value is never rescanned), when the
lookup does not know the name the whole call fails with an error naming
that variable, and a string with no reference is returned unchanged. -/
theorem expandVariables_correct (s : List Char) (lookup : List Char → Option (List Char))
    (i : Nat) (name : List Char) :
    ((∀ j n, ¬ varMatchAt s j n) → expandVariables s lookup = .ok s) ∧
    (varMatchAt s i name → (∀ j, j < i → ∀ n, ¬ varMatchAt s j n) →
      ((lookup name = none → expandVariables s lookup = .error name) ∧
       (∀ v, lookup name = some v →
         expandVariables s lookup
           = (expandVariables (s.drop (i + (name.length + 3))) lookup).map
               (fun t => s.take i ++ (v ++ t))))) := by
  constructor
  · intro hno
    rcases hfv : findVar s with _ | ⟨⟨i0, nm, l⟩⟩
    · exact expandVariables_no_var s lookup hfv
    · obtain ⟨hv0, _, _⟩ := findVar_some s i0 nm l hfv
      exact absurd hv0 (hno i0 nm)
  · intro hm hleft
    have hfv := findVar_eq_of_match s i name hm hleft
    constructor
    · intro hl
      exact expandVariables_not_found s lookup i name _ hfv hl
    · intro v hl
      exact expandVariables_step s lookup i name _ v hfv hl

/-- Witness for expandVariables_correct: in "x${A}y" with A bound to
"zw", the leftmost (only) reference is at index 1 with name A, and the
expansion yields "xzwy". -/
theorem expandVariables_correct_witness :
    expandVariables ("x${A}y".toList)
      (fun n => if n = ['A'] then some ['z', 'w'] else none) = .ok ("xzwy".toList) := by
  have hleft : ∀ j, j < 1 → ∀ n, ¬ varMatchAt ("x${A}y".toList) j n := by
    intro j hj n hn
    interval_cases j
    obtain ⟨t, ht⟩ := (startsWith_iff _ _).mp hn.2.2
    rw [List.drop_zero] at ht
    simp [List.cons_eq_cons] at ht
  have h := ((expandVariables_correct ("x${A}y".toList)
      (fun n => if n = ['A'] then some ['z', 'w'] else none) 1 ['A']).2
      (by decide) hleft).2 ['z', 'w'] rfl
  rw [h]
  decide

/-! ## Claim C8: expansion of fully-defined strings leaves no pattern -/

/-- Counterexample to claim C8 as stated. The lookup defines every
variable (it always returns a value), so every reference in "${A}" names
a defined variable; but the value of A is the text "${B}", which is
substituted verbatim and never rescanned, so the result still contains a
variable pattern. -/
theorem expandVariables_counterexample :
    expandVariables ("${A}".toList) (fun _ => some ("${B}".toList)) = .ok ("${B}".toList) ∧
    varMatchAt ("${B}".toList) 0 ['B'] := by
  constructor
  · decide
  · decide

/-- Claim C8, amended: if every occurrence of a dollar sign in s begins a
well-formed variable reference whose name the lookup knows, and the
values returned by the lookup contain no dollar sign, then expansion
succeeds and its result contains no dollar sign at all, in particular no
occurrence of the variable pattern. -/
theorem expandVariables_clean (s : List Char) (lookup : List Char → Option (List Char))
    (hdollar : ∀ j : Nat, s[j]? = some '$' →
      ∃ name, varMatchAt s j name ∧ lookup name ≠ none)
    (hvals : ∀ n v, lookup n = some v → '$' ∉ v) :
    ∃ r, expandVariables s lookup = .ok r ∧ '$' ∉ r ∧ ∀ i name, ¬ varMatchAt r i name := by
  suffices H : ∀ (fuel : Nat) (s : List Char), s.length ≤ fuel →
      (∀ j : Nat, s[j]? = some '$' → ∃ name, varMatchAt s j name ∧ lookup name ≠ none) →
      ∃ r, expandVariables s lookup = .ok r ∧ '$' ∉ r ∧ ∀ i name, ¬ varMatchAt r i name by
    exact H s.length s (le_refl _) hdollar
  intro fuel
  induction fuel with
  | zero =>
    intro s hs hd
    have hnil : s = [] := List.length_eq_zero.mp (by omega)
    subst hnil
    refine ⟨[], expandVariables_no_var [] lookup rfl, by simp, ?_⟩
    exact no_dollar_no_match [] (by simp)
  | succ m ih =>
    intro s hs hd
    rcases hfv : findVar s with _ | ⟨⟨i, name, len⟩⟩
    · refine ⟨s, expandVariables_no_var s lookup hfv, ?_, findVar_none s hfv⟩
      intro hmem
      obtain ⟨j, hj⟩ := List.mem_iff_getElem?.mp hmem
      obtain ⟨nm, hnm, _⟩ := hd j hj
      exact absurd hnm (findVar_none s hfv j nm)
    · obtain ⟨hm, hlen, hleft⟩ := findVar_some s i name len hfv
      have hb := findVar_bounds s i name len hfv
      obtain ⟨nm2, hm2, hl2⟩ := hd i (varMatchAt_head s i name hm)
      have hnm : nm2 = name := varMatchAt_unique s i nm2 name hm2 hm
      subst hnm
      rcases hlk : lookup nm2 with _ | v
      · exact absurd hlk hl2
      · have hdl : (s.drop (i + len)).length = s.length - (i + len) := List.length_drop _ _
        have hd' : ∀ j : Nat, (s.drop (i + len))[j]? = some '$' →
            ∃ name, varMatchAt (s.drop (i + len)) j name ∧ lookup name ≠ none := by
          intro j hj
          rw [List.getElem?_drop] at hj
          obtain ⟨nm, hnm, hl⟩ := hd (i + len + j) hj
          refine ⟨nm, ?_, hl⟩
          obtain ⟨hne, hc, hsw⟩ := hnm
          refine ⟨hne, hc, ?_⟩
          rw [List.drop_drop]
          exact hsw
        obtain ⟨r', hr', hnd', _⟩ := ih (s.drop (i + len)) (by omega) hd'
        refine ⟨s.take i ++ (v ++ r'), ?_, ?_, ?_⟩
        · rw [expandVariables_step s lookup i nm2 len v hfv hlk, hr']
          rfl
        · intro hmem
          rcases List.mem_append.mp hmem with h1 | h2
          · obtain ⟨j, hj⟩ := List.mem_iff_getElem?.mp h1
            rw [List.getElem?_take] at hj
            split at hj
            · rename_i hji
              obtain ⟨nm, hnm, _⟩ := hd j hj
              exact hleft j hji nm hnm
            · simp at hj
          · rcases List.mem_append.mp h2 with h3 | h4
            · exact hvals nm2 v hlk h3
            · exact hnd' h4
        · apply no_dollar_no_match
          intro hmem
          rcases List.mem_append.mp hmem with h1 | h2
          · obtain ⟨j, hj⟩ := List.mem_iff_getElem?.mp h1
            rw [List.getElem?_take] at hj
            split at hj
            · rename_i hji
              obtain ⟨nm, hnm, _⟩ := hd j hj
              exact hleft j hji nm hnm
            · simp at hj
          · rcases List.mem_append.mp h2 with h3 | h4
            · exact hvals nm2 v hlk h3
            · exact hnd' h4

/-- Witness for expandVariables_clean on "${A}" with A bound to "x":
the expansion succeeds and leaves no dollar sign and no pattern. -/
theorem expandVariables_clean_witness :
    ∃ r, expandVariables ("${A}".toList)
        (fun n => if n = ['A'] then some ['x'] else none) = .ok r ∧
      '$' ∉ r ∧ ∀ i name, ¬ varMatchAt r i name := by
  apply expandVariables_clean
  · intro j hj
    match j with
    | 0 => exact ⟨['A'], by decide, by decide⟩
    | 1 => exact absurd hj (by decide)
    | 2 => exact absurd hj (by decide)
    | 3 => exact absurd hj (by decide)
    | n + 4 =>
      have : ("${A}".toList)[n + 4]? = none := List.getElem?_eq_none (by simp)
      rw [this] at hj
      exact absurd hj (by simp)
  · intro n v hv
    by_cases h : n = ['A']
    · rw [if_pos h] at hv
      injection hv with hv2
      subst hv2
      decide
    · rw [if_neg h] at hv
      exact absurd hv (by simp)

/-! ## Claim C2: exit-code extraction and expectation checking -/

/-- Counterexample to claim C2 as stated. On an error whose chain holds
both an OS error number (errno 5) and an OS-level process exit status
(7), the code's extractExitCode returns the errno, not the exit status:
the switch in extractExitCode queries syscall.Errno first. The priority
order claimed (process exit status before errno) gives 7 and would let a
case expecting exit code 7 pass, while the code fails it. -/
theorem extractExitCode_counterexample :
    extractExitCode ⟨some 5, some 7, none⟩ = some 5 ∧
    specOrderExtract ⟨some 5, some 7, none⟩ = some 7 ∧
    checkExpectation (some ⟨some 5, some 7, none⟩) true 7
      = .error "failed with a mismatched exit code" ∧
    specCheckExpectation (some ⟨some 5, some 7, none⟩) true 7 = .ok () := by
  decide

/-- Claim C2, amended: when a failure with a specific exit code was
expected, the engine extracts a code from the error by trying, in
priority order, the OS error number (errno) first, then the OS-level
process exit status, then the typed ExitCodeErr; absence of any
extractable code, or a mismatch with the expected code, fails the case,
and a matching code passes it. -/
theorem checkExpectation_exitCode (e : goError) (want : Int) :
    (∀ n, e.errno = some n → extractExitCode e = some n) ∧
    (e.errno = none → ∀ n, e.exitStatus = some n → extractExitCode e = some n) ∧
    (e.errno = none → e.exitStatus = none → extractExitCode e = e.exitCodeErr) ∧
    (want ≠ 0 → extractExitCode e = none →
      checkExpectation (some e) true want
        = .error "failed without an exit code, but one was expected") ∧
    (want ≠ 0 → ∀ g, extractExitCode e = some g → g ≠ want →
      checkExpectation (some e) true want = .error "failed with a mismatched exit code") ∧
    (want ≠ 0 → extractExitCode e = some want →
      checkExpectation (some e) true want = .ok ()) := by
  obtain ⟨er, es, ec⟩ := e
  refine ⟨?_, ?_, ?_, ?_, ?_, ?_⟩
  · intro n hn; simp only at hn; subst hn; rfl
  · intro h n hn; simp only at h hn; subst h; subst hn; rfl
  · intro h1 h2; simp only at h1 h2; subst h1; subst h2; cases ec <;> rfl
  · intro hw hx
    simp only [checkExpectation, Bool.not_true, Bool.false_eq_true, if_false, hx,
      bne_iff_ne, ne_eq, hw, not_false_eq_true, if_true]
  · intro hw g hg hne
    simp only [checkExpectation, Bool.not_true, Bool.false_eq_true, if_false, hg,
      bne_iff_ne, ne_eq, hw, not_false_eq_true, if_true, hne]
  · intro hw hx
    simp only [checkExpectation, Bool.not_true, Bool.false_eq_true, if_false, hx,
      bne_iff_ne, ne_eq, hw, not_false_eq_true, if_true]
    simp

/-- Witness for checkExpectation_exitCode: a command error carrying only
an ExitCodeErr code of 3 passes a case expecting exit code 3. -/
theorem checkExpectation_exitCode_witness :
    checkExpectation (some ⟨none, none, some 3⟩) true 3 = .ok () :=
  (checkExpectation_exitCode ⟨none, none, some 3⟩ 3).2.2.2.2.2 (by decide) rfl

/-! ## Claim C7: per-file stop at first error, per-suite isolation -/

/-- Claim C7: within one file the cases run in order and the file stops
at the first case returning an error (exactly the first i+1 cases are
executed when case i is the first to fail), while the suite records every
file's outcome from that file's own cases alone, so one file's error
never prevents another file from running. -/
theorem executeStopsIsolated {ε : Type} (files : List (List (Except ε Unit))) (k i : Nat)
    (cs : List (Except ε Unit)) (e : ε)
    (hk : files[k]? = some cs)
    (hpre : ∀ j, j < i → cs[j]? = some (.ok ()))
    (hi : cs[i]? = some (.error e)) :
    executeCases cs = (i + 1, some e) ∧
    (compareSuite files).length = files.length ∧
    (compareSuite files)[k]? = some (some e) ∧
    (∀ (m : Nat) (f' : List (Except ε Unit)), files[m]? = some f' →
      (compareSuite files)[m]? = some (executeCases f').2) := by
  have hrun : executeCases cs = (i + 1, some e) := by
    clear hk
    induction i generalizing cs with
    | zero =>
      rcases cs with _ | ⟨c, rest⟩
      · simp at hi
      · simp only [List.getElem?_cons_zero, Option.some.injEq] at hi
        subst hi
        rfl
    | succ i ih =>
      rcases cs with _ | ⟨c, rest⟩
      · simp at hi
      · have h0 := hpre 0 (Nat.succ_pos i)
        simp only [List.getElem?_cons_zero, Option.some.injEq] at h0
        subst h0
        have := ih rest (fun j hj => by
          have := hpre (j + 1) (Nat.succ_lt_succ hj)
          simpa using this) (by simpa using hi)
        simp [executeCases, this]
  refine ⟨hrun, by simp [compareSuite], ?_, ?_⟩
  · simp only [compareSuite, List.getElem?_map, hk, Option.map_some', hrun]
  · intro m f' hm
    simp only [compareSuite, List.getElem?_map, hm, Option.map_some']

/-- Witness for executeStopsIsolated: in a suite of two files where the
first file's second case errors, the first file executes exactly two
cases, and the second file's outcome is still recorded. -/
theorem executeStopsIsolated_witness :
    executeCases [Except.ok (), Except.error 0, Except.ok ()] = (2, some 0) ∧
    (compareSuite [[Except.ok (), Except.error 0, Except.ok ()], [Except.error 1]]).length = 2 ∧
    (compareSuite [[Except.ok (), Except.error 0, Except.ok ()], [Except.error 1]])[0]?
      = some (some 0) ∧
    (∀ (m : Nat) (f' : List (Except Nat Unit)),
      [[Except.ok (), Except.error 0, Except.ok ()], [Except.error 1]][m]? = some f' →
      (compareSuite [[Except.ok (), Except.error 0, Except.ok ()], [Except.error 1]])[m]?
        = some (executeCases f').2) :=
  executeStopsIsolated [[Except.ok (), Except.error 0, Except.ok ()], [Except.error 1]] 0 1
    [Except.ok (), Except.error 0, Except.ok ()] 0 rfl
    (by intro j hj; interval_cases j; rfl) rfl

/-! ## Claim C6: atomicity of update mode -/

/-- Claim C6: update mode writes the new content only to a temporary
file, and the golden file changes only through the single atomic rename.
Starting with no temporary file, a run that fails at any step (execution,
temp-file creation, write, sync, close, or rename) ends with the original
content intact and the temporary file removed; a successful run ends with
the new content installed and the temporary file removed; the final state
is the fold of the emitted operation trace, and every operation in the
trace other than the rename leaves the original file untouched. -/
theorem updateFile_atomic {α : Type} (env : updateEnv) (e0 newC : α) (st : fsState α)
    (hst : st.temp = none) :
    ((updateFile env e0 newC st).2.1 = false →
      (updateFile env e0 newC st).1.orig = st.orig ∧
        (updateFile env e0 newC st).1.temp = none) ∧
    ((updateFile env e0 newC st).2.1 = true →
      (updateFile env e0 newC st).1.orig = newC ∧
        (updateFile env e0 newC st).1.temp = none) ∧
    ((updateFile env e0 newC st).2.1 = true ↔
      env.execOk ∧ env.createOk ∧ env.writeOk ∧ env.syncOk ∧ env.closeOk ∧ env.renameOk) ∧
    (updateFile env e0 newC st).1 = (updateFile env e0 newC st).2.2.foldl applyOp st ∧
    (∀ op ∈ (updateFile env e0 newC st).2.2, op ≠ fsOp.renameTempToOrig →
      ∀ s : fsState α, (applyOp s op).orig = s.orig) := by
  obtain ⟨so, stemp⟩ := st
  simp only at hst
  subst hst
  obtain ⟨e, c, w, sy, cl, r⟩ := env
  cases e <;> cases c <;> cases w <;> cases sy <;> cases cl <;> cases r <;>
    simp [updateFile, updateToTemp, cleanupTemp, closeAtomicallyReplace, applyOp]

/-- Witness for updateFile_atomic: a fully successful run installs the
new content 7 over the original 1 and leaves no temporary file. -/
theorem updateFile_atomic_witness :
    ((updateFile ⟨true, true, true, true, true, true⟩ (0 : Nat) 7 ⟨1, none⟩).2.1 = false →
      (updateFile ⟨true, true, true, true, true, true⟩ (0 : Nat) 7 ⟨1, none⟩).1.orig = 1 ∧
        (updateFile ⟨true, true, true, true, true, true⟩ (0 : Nat) 7 ⟨1, none⟩).1.temp = none) ∧
    ((updateFile ⟨true, true, true, true, true, true⟩ (0 : Nat) 7 ⟨1, none⟩).2.1 = true →
      (updateFile ⟨true, true, true, true, true, true⟩ (0 : Nat) 7 ⟨1, none⟩).1.orig = 7 ∧
        (updateFile ⟨true, true, true, true, true, true⟩ (0 : Nat) 7 ⟨1, none⟩).1.temp = none) ∧
    ((updateFile ⟨true, true, true, true, true, true⟩ (0 : Nat) 7 ⟨1, none⟩).2.1 = true ↔
      true = true ∧ true = true ∧ true = true ∧ true = true ∧ true = true ∧ true = true) ∧
    (updateFile ⟨true, true, true, true, true, true⟩ (0 : Nat) 7 ⟨1, none⟩).1
      = (updateFile ⟨true, true, true, true, true, true⟩ (0 : Nat) 7 ⟨1, none⟩).2.2.foldl
          applyOp ⟨1, none⟩ ∧
    (∀ op ∈ (updateFile ⟨true, true, true, true, true, true⟩ (0 : Nat) 7 ⟨1, none⟩).2.2,
      op ≠ fsOp.renameTempToOrig → ∀ s : fsState Nat, (applyOp s op).orig = s.orig) :=
  updateFile_atomic ⟨true, true, true, true, true, true⟩ (0 : Nat) 7 ⟨1, none⟩ rfl

/-! ## Claim C9: stored cases always have a command -/

theorem readLoop_nonempty (rest : List Line) :
    ∀ (tf : testFile) (st : parseState) (n : Nat) (tfr : testFile),
    readLoop tf st n rest = .ok tfr →
    (∀ c ∈ tf.cases, c.commands ≠ []) →
    (∀ tc, st = .inCommands tc ∨ st = .inOutput tc → tc.commands ≠ []) →
    ∀ c ∈ tfr.cases, c.commands ≠ [] := by
  induction rest with
  | nil =>
    intro tf st n tfr h hacc hst
    cases st with
    | beforeFirst pre =>
      simp only [readLoop] at h
      cases h
      exact hacc
    | inCommands tc =>
      simp only [readLoop] at h
      cases h
      intro c hc
      rcases List.mem_append.mp hc with h1 | h2
      · exact hacc c h1
      · rw [List.mem_singleton] at h2
        subst h2
        exact hst tc (Or.inl rfl)
    | inOutput tc =>
      simp only [readLoop] at h
      cases h
      intro c hc
      rcases List.mem_append.mp hc with h1 | h2
      · exact hacc c h1
      · rw [List.mem_singleton] at h2
        subst h2
        exact hst tc (Or.inr rfl)
  | cons line rest ih =>
    intro tf st n tfr h hacc hst
    cases st with
    | beforeFirst pre =>
      simp only [readLoop] at h
      by_cases hcl : isCommandLine line
      · rw [if_pos hcl] at h
        refine ih tf _ (n + 1) tfr h hacc ?_
        intro tc htc
        rcases htc with htc | htc <;> cases htc
        simp [addCommandLine]
      · rw [if_neg hcl] at h
        by_cases hig : isIgnorableLine (trimSpace line)
        · rw [if_pos hig] at h
          exact ih tf _ (n + 1) tfr h hacc (by intro tc htc; rcases htc with htc | htc <;> cases htc)
        · rw [if_neg hig] at h
          cases h
    | inCommands tc =>
      simp only [readLoop] at h
      by_cases hcl : isCommandLine line
      · rw [if_pos hcl] at h
        refine ih tf _ (n + 1) tfr h hacc ?_
        intro tc' htc
        rcases htc with htc | htc <;> cases htc
        simp [addCommandLine]
      · rw [if_neg hcl] at h
        refine ih tf _ (n + 1) tfr h hacc ?_
        intro tc' htc
        rcases htc with htc | htc <;> cases htc
        exact hst tc (Or.inl rfl)
    | inOutput tc =>
      simp only [readLoop] at h
      by_cases hcl : isCommandLine line
      · rw [if_pos hcl] at h
        refine ih _ _ (n + 1) tfr h ?_ ?_
        · intro c hc
          rcases List.mem_append.mp hc with h1 | h2
          · exact hacc c h1
          · rw [List.mem_singleton] at h2
            subst h2
            exact hst tc (Or.inr rfl)
        · intro tc' htc
          rcases htc with htc | htc <;> cases htc
          simp [addCommandLine]
      · rw [if_neg hcl] at h
        refine ih tf _ (n + 1) tfr h hacc ?_
        intro tc' htc
        rcases htc with htc | htc <;> cases htc
        exact hst tc (Or.inr rfl)

/-- Claim C9: every test case stored by a successful parse has a
non-empty command list: a case is only opened at a command-marker line,
which is immediately stored as its first command. -/
theorem readFile_commands_nonempty (text : List Line) (tf : testFile)
    (h : readFile text = .ok tf) : ∀ c ∈ tf.cases, c.commands ≠ [] := by
  refine readLoop_nonempty text ⟨[], []⟩ (.beforeFirst []) 0 tf h (by simp) ?_
  intro tc htc
  rcases htc with htc | htc <;> exact absurd htc (by simp)

/-- Witness for readFile_commands_nonempty on the one-line file "$ c":
the single stored case has a non-empty command list. -/
theorem readFile_commands_nonempty_witness :
    (⟨[], 1, [['c']], [], none⟩ : testCase).commands ≠ [] :=
  readFile_commands_nonempty [['$', ' ', 'c']] ⟨[⟨[], 1, [['c']], [], none⟩], []⟩
    (by decide) ⟨[], 1, [['c']], [], none⟩ (by simp)

/-! ## Claim C10: the engine's unchecked args[0] access on the empty command -/

/-- Claim C10: the parser accepts a file whose only line is "$", storing a
case whose single command is the empty string; tokenizing the empty
command with strings.Fields yields no tokens, and the engine's unchecked
access args[0] is then out of bounds (a panic, marked here by the panic
outcome of commandStep), rather than an error return. -/
theorem emptyCommandPanics :
    readFile [['$']] = .ok ⟨[⟨[], 1, [[]], [], none⟩], []⟩ ∧
    fields [] = [] ∧
    commandStep (fun _ => none) [] = .panic := by
  decide

end Cmdtest
